import Mathlib

/-!
Shallow embedding of the quiz application's core logic (server request
handler and client session state machine), together with proofs of the
specification claims about it.

Server side (`sortLeaderboard`, `sanitizeName`, `normalizeAnswers`,
`clampQuestionCount`, `shuffleQuestions`, the `POST /api/submit` handler)
is translated from the HTTP server source; client side (`selectChoice`,
the next-button handler) from the browser script.  JavaScript numbers are
modelled as `ℚ` (times) and `Int`/`ℕ` (ids, indices, scores); JavaScript
strings as `List Char`; `null`/missing values as `Option`; the JSON
leaderboard file as a `List Entry` threaded through the handler.
`Array.prototype.sort` (a stable sort in Node) is modelled by the stable
`List.insertionSort`; `Date.now()` / `new Date().toISOString()` timestamps
are modelled as an explicit `ℕ` parameter, comparison of ISO strings via
`getTime` as `ℕ` comparison; `Math.random()` draws in the Fisher-Yates
shuffle are an explicit oracle `ℕ → ℕ`.
-/

namespace QuizApp

/-! ### Strings and whitespace (server `sanitizeName`) -/

/-- JavaScript regex `\s` whitespace class, restricted to the ASCII range
(Unicode space characters are treated alike by the code and never matter
for the claims). -/
def isJsWs (c : Char) : Bool :=
  c = ' ' || c = '\t' || c = '\n' || c = '\r' || c = '\x0b' || c = '\x0c'

/-- State machine for `str.replace(/\s+/g, ' ')`: the flag records whether
the previous character was part of a whitespace run already replaced. -/
def collapseGo : Bool → List Char → List Char
  | _, [] => []
  | prevWs, c :: rest =>
    if isJsWs c then
      if prevWs then collapseGo true rest
      else ' ' :: collapseGo true rest
    else c :: collapseGo false rest

/-- Models `name.replace(/\s+/g, ' ')`. -/
def collapseWs (l : List Char) : List Char := collapseGo false l

/-- Models `String.prototype.trim`. -/
def trimWs (l : List Char) : List Char :=
  ((l.dropWhile (isJsWs ·)).reverse.dropWhile (isJsWs ·)).reverse

/-- Server: `name.replace(/\s+/g, ' ').trim().slice(0, 32)`. -/
def sanitizeName (l : List Char) : List Char :=
  (trimWs (collapseWs l)).take 32

/-! ### Data model -/

/-- A question-bank record.  `answer` is the index of the correct choice. -/
structure Question where
  id : Int
  text : String
  choices : List String
  answer : Int
deriving DecidableEq, Repr

/-- A persisted leaderboard record.  `totalTime` is `null`able;
`completedAt` is the ISO timestamp mapped to its `getTime` value. -/
structure Entry where
  name : List Char
  score : ℕ
  totalQuestions : ℕ
  totalTime : Option ℚ
  completedAt : ℕ
deriving DecidableEq, Repr

/-- JavaScript arithmetic coerces `null` to `0`, so `a.totalTime -
b.totalTime` subtracts effective values with `null ↦ 0`. -/
def effTime (t : Option ℚ) : ℚ := t.getD 0

/-- The comparator of `sortLeaderboard`, returning the signed value the
JavaScript callback returns.  Mirrors:
`if (b.score !== a.score) return b.score - a.score;`
`if (a.totalTime !== b.totalTime) return a.totalTime - b.totalTime;`
`return new Date(a.completedAt).getTime() - new Date(b.completedAt).getTime();` -/
def cmp (a b : Entry) : ℚ :=
  if b.score ≠ a.score then (b.score : ℚ) - (a.score : ℚ)
  else if a.totalTime ≠ b.totalTime then effTime a.totalTime - effTime b.totalTime
  else (a.completedAt : ℚ) - (b.completedAt : ℚ)

/-- Entry `a` may be placed before `b` by the stable sort. -/
def entryLE (a b : Entry) : Prop := cmp a b ≤ 0

/-- A subtraction-free decision procedure for `entryLE` (the sign of a
difference is the order of its operands). -/
def entryLEb (a b : Entry) : Bool :=
  if b.score ≠ a.score then decide (b.score ≤ a.score)
  else if a.totalTime ≠ b.totalTime then
    decide (effTime a.totalTime ≤ effTime b.totalTime)
  else decide (a.completedAt ≤ b.completedAt)

lemma entryLEb_iff {a b : Entry} : entryLEb a b = true ↔ entryLE a b := by
  rw [entryLEb, entryLE, cmp]
  by_cases hs : b.score = a.score
  · simp only [if_neg (show ¬ b.score ≠ a.score by simp [hs])]
    by_cases ht : a.totalTime = b.totalTime
    · simp only [if_neg (show ¬ a.totalTime ≠ b.totalTime by simp [ht])]
      simp only [decide_eq_true_eq]
      constructor
      · intro h
        have : (a.completedAt : ℚ) ≤ (b.completedAt : ℚ) := by exact_mod_cast h
        linarith
      · intro h
        have : (a.completedAt : ℚ) ≤ (b.completedAt : ℚ) := by linarith
        exact_mod_cast this
    · simp only [if_pos (show a.totalTime ≠ b.totalTime from ht)]
      simp only [decide_eq_true_eq]
      constructor
      · intro h
        linarith
      · intro h
        linarith
  · simp only [if_pos (show b.score ≠ a.score from hs)]
    simp only [decide_eq_true_eq]
    constructor
    · intro h
      have : (b.score : ℚ) ≤ (a.score : ℚ) := by exact_mod_cast h
      linarith
    · intro h
      have : (b.score : ℚ) ≤ (a.score : ℚ) := by linarith
      exact_mod_cast this

instance : DecidableRel entryLE :=
  fun a b => decidable_of_iff (entryLEb a b = true) entryLEb_iff

/-- Server `sortLeaderboard`: stable-sort a copy by the comparator and
truncate to the top 25. -/
def sortLeaderboard (l : List Entry) : List Entry :=
  (List.insertionSort entryLE l).take 25

/-! ### Answer normalization (server `normalizeAnswers`) -/

/-- One element of the submitted `answers` array: an object with numeric
`questionId`/`choiceIndex` fields, a bare number, or anything else. -/
inductive RawAnswer where
  | pair (questionId choiceIndex : Int)
  | num (value : Int)
  | invalid
deriving DecidableEq, Repr

def bankIds (bank : List Question) : List Int := bank.map (·.id)

/-- Models `map.has(qid)` on the accumulated insertion-ordered map. -/
def hasKey (m : List (Int × Int)) (qid : Int) : Bool :=
  m.any (fun pr => pr.1 = qid)

/-- The body of the `rawAnswers.forEach((entry, index) => ...)` loop;
`acc` is the `Map` in insertion order, `idx` the element index. -/
def normStep (bank : List Question) (idx : ℕ) (acc : List (Int × Int)) :
    RawAnswer → List (Int × Int)
  | .pair qid ci =>
    if (bankIds bank).contains qid && !hasKey acc qid then acc ++ [(qid, ci)]
    else acc
  | .num v =>
    match bank.get? idx with
    | some q =>
      if (bankIds bank).contains q.id && !hasKey acc q.id then acc ++ [(q.id, v)]
      else acc
    | none => acc
  | .invalid => acc

/-- The `forEach` loop over the raw answers. -/
def normGo (bank : List Question) : List RawAnswer → ℕ → List (Int × Int) → List (Int × Int)
  | [], _, acc => acc
  | e :: rest, idx, acc => normGo bank rest (idx + 1) (normStep bank idx acc e)

/-- Server `normalizeAnswers`: `none` models the `null` return (payload is
not an array, is empty, or the map size differs from the array length). -/
def normalizeAnswers (bank : List Question) : Option (List RawAnswer) → Option (List (Int × Int))
  | none => none
  | some raw =>
    if raw.isEmpty then none
    else if (normGo bank raw 0 []).length = raw.length then some (normGo bank raw 0 [])
    else none

/-! ### Question count clamping and shuffle (server `GET /api/quiz`) -/

/-- Models `Math.trunc` (rounding toward zero). -/
def jsTrunc (q : ℚ) : Int := if 0 ≤ q then ⌊q⌋ else ⌈q⌉

/-- The `limit` query parameter after `Number(value)`: absent (`null`),
the empty string, a string whose `Number` is not finite, or a finite
numeric value. -/
inductive LimitValue where
  | absent
  | emptyStr
  | nonNumeric
  | numeric (q : ℚ)
deriving DecidableEq, Repr

def DEFAULT_QUESTION_COUNT : ℕ := 10

/-- Server `clampQuestionCount`.  Note the default is returned before any
clamping against the bank size. -/
def clampQuestionCount (bankLen : ℕ) : LimitValue → ℕ
  | .absent => DEFAULT_QUESTION_COUNT
  | .emptyStr => DEFAULT_QUESTION_COUNT
  | .nonNumeric => DEFAULT_QUESTION_COUNT
  | .numeric q =>
    let t := jsTrunc q
    if t < 1 then 1
    else if (bankLen : Int) < t then bankLen
    else t.toNat

/-- Models `[copy[i], copy[j]] = [copy[j], copy[i]]`; out-of-range indices leave
the list unchanged (never reached by the shuffle loop). -/
def listSwap (l : List α) (i j : ℕ) : List α :=
  match l.get? i, l.get? j with
  | some x, some y => (l.set i y).set j x
  | _, _ => l

/-- The Fisher-Yates loop `for (let i = copy.length - 1; i > 0; i -= 1)`,
with the `Math.floor(Math.random() * (i + 1))` draw at index `i` supplied
by the oracle `js`. -/
def fyAux (js : ℕ → ℕ) : ℕ → List α → List α
  | 0, l => l
  | i + 1, l => fyAux js i (listSwap l (i + 1) (js (i + 1)))

/-- Server `shuffleQuestions`.  The per-question copy (spreading the
record and its `choices` array) is the identity on well-typed questions,
so it is not modelled separately. -/
def shuffleQuestions (js : ℕ → ℕ) (l : List Question) : List Question :=
  fyAux js (l.length - 1) l

/-- The question list served by `GET /api/quiz`:
`shuffleQuestions(questions).slice(0, limit)`. -/
def quizQuestions (bank : List Question) (js : ℕ → ℕ) (lim : LimitValue) : List Question :=
  (shuffleQuestions js bank).take (clampQuestionCount bank.length lim)

/-! ### The submit handler (server `POST /api/submit`) -/

/-- Models `new Map(questions.map(q => [q.id, q])).get(qid)`: with duplicate ids
the last occurrence wins, hence the reversed search. -/
def findQ (bank : List Question) (qid : Int) : Option Question :=
  bank.reverse.find? (fun q => q.id = qid)

/-- Models `toFixed(2)` followed by `Number(...)`: round to two decimals,
half-up via the floor (the handler only ever applies this to the
non-negative `totalTime`, where JavaScript's rounding is half-up). -/
def round2 (q : ℚ) : ℚ := ((⌊q * 100 + 1 / 2⌋ : ℤ) : ℚ) / 100

/-- The parsed request body.  `answers = none` models a non-array value;
`totalTime = none` a missing or non-numeric field. -/
structure SubmitPayload where
  playerName : List Char
  answers : Option (List RawAnswer)
  totalTime : Option ℚ
deriving DecidableEq, Repr

/-- Models `typeof payload.totalTime === 'number' && payload.totalTime >= 0
? Number(payload.totalTime) : null`. -/
def parseTime : Option ℚ → Option ℚ
  | some q => if 0 ≤ q then some q else none
  | none => none

/-- Models `score === current.score && totalTime !== null &&
current.totalTime !== null && totalTime < current.totalTime`, with the
raw submitted time on the left of the comparison. -/
def isFaster (rawT curT : Option ℚ) : Bool :=
  match rawT, curT with
  | some t, some ct => decide (t < ct)
  | some _, none => false
  | none, some _ => false
  | none, none => false

/-- Models `isBetterScore || isFaster` for a stored entry `cur`. -/
def replCond (newE cur : Entry) (rawT : Option ℚ) : Bool :=
  decide (cur.score < newE.score) ||
    (decide (newE.score = cur.score) && isFaster rawT cur.totalTime)

/-- The merge of the new entry into the loaded leaderboard:
`findIndex(entry => entry.name === name)`, replace in place if better,
otherwise keep; push at the end when the name is absent. -/
def mergeEntry : List Entry → Entry → Option ℚ → List Entry
  | [], newE, _ => [newE]
  | cur :: rest, newE, rawT =>
    if cur.name = newE.name then
      (if replCond newE cur rawT then newE else cur) :: rest
    else cur :: mergeEntry rest newE rawT

/-- The HTTP response of `POST /api/submit` (400 bodies carry only an
error message, irrelevant to the claims). -/
inductive SubmitOutcome where
  | ok (score total : ℕ) (board : List Entry)
  | badRequest
deriving DecidableEq, Repr

def SubmitOutcome.scoreOf : SubmitOutcome → Option ℕ
  | .ok s _ _ => some s
  | .badRequest => none

def SubmitOutcome.totalOf : SubmitOutcome → Option ℕ
  | .ok _ t _ => some t
  | .badRequest => none

/-- Models `answeredQuestions.reduce(...)`: one point per entry answered with
the question's correct index (the looked-up question always exists on
the success path). -/
def submitScore (bank : List Question) (m : List (Int × Int)) : ℕ :=
  m.countP (fun pr =>
    match findQ bank pr.1 with
    | some q => decide (q.answer = pr.2)
    | none => false)

/-- The `newEntry` object built by the handler. -/
def newEntryOf (bank : List Question) (p : SubmitPayload) (m : List (Int × Int))
    (now : ℕ) : Entry :=
  ⟨sanitizeName p.playerName, submitScore bank m, m.length,
    (parseTime p.totalTime).map round2, now⟩

/-- The `POST /api/submit` handler: returns the response together with
the persisted leaderboard file after the request (unchanged on every 400
path, the freshly written sorted list on success). -/
def handleSubmit (bank : List Question) (p : SubmitPayload) (store : List Entry)
    (now : ℕ) : SubmitOutcome × List Entry :=
  if sanitizeName p.playerName = [] then (.badRequest, store)
  else
    match normalizeAnswers bank p.answers with
    | none => (.badRequest, store)
    | some m =>
      if m.length = 0 then (.badRequest, store)
      else if m.any (fun pr => (findQ bank pr.1).isNone) then (.badRequest, store)
      else
        let sorted :=
          sortLeaderboard (mergeEntry store (newEntryOf bank p m now) (parseTime p.totalTime))
        (.ok (submitScore bank m) m.length sorted, sorted)

/-! ### Client session state machine -/

/-- Per-question feedback status computed by `handleChoiceSelection`. -/
inductive FB where
  | correct
  | incorrect
deriving DecidableEq, Repr

/-- The client `state` object fields the navigation claims depend on.
`answers` and `feedback` are initialized to `null`-filled arrays of the
question count. -/
structure ClientState where
  questions : List Question
  answers : List (Option Int)
  feedback : List (Option FB)
  currentIndex : ℕ
deriving DecidableEq, Repr

/-- Models `typeof state.answers[state.currentIndex] === 'number'`: the
condition under which `updateNavigationButtons` enables the next
button. -/
def nextEnabled (s : ClientState) : Bool :=
  match s.answers.get? s.currentIndex with
  | some (some _) => true
  | _ => false

/-- Client `handleChoiceSelection`: record the answer at the current
index and derive feedback from the question's correct index; a missing
question is a no-op. -/
def selectChoice (s : ClientState) (choice : Int) : ClientState :=
  match s.questions.get? s.currentIndex with
  | none => s
  | some q =>
    { s with
      answers := s.answers.set s.currentIndex (some choice)
      feedback := s.feedback.set s.currentIndex
        (some (if choice = q.answer then .correct else .incorrect)) }

/-- What the next-button click does. -/
inductive AdvanceResult where
  | disabled
  | submitted
  | moved
deriving DecidableEq, Repr

/-- The next-button behavior: the button is disabled (click impossible)
unless the current question is answered; on the last question the click
triggers submission without touching `currentIndex`; otherwise it
increments `currentIndex`.  The `length - 1` comparison is JavaScript
integer arithmetic, hence over `Int`. -/
def advance (s : ClientState) : ClientState × AdvanceResult :=
  if ¬ nextEnabled s then (s, .disabled)
  else if (s.currentIndex : Int) = (s.questions.length : Int) - 1 then (s, .submitted)
  else ({ s with currentIndex := s.currentIndex + 1 }, .moved)

end QuizApp

/-! ### Generic facts about stable insertion sort under a total (but not
necessarily transitive) relation.  The leaderboard comparator is total
yet fails transitivity exactly on same-score pairs of which one side has
a `null` time and the other a `0` time, so the standard sortedness
theorems do not apply to it directly. -/

section SortLemmas

variable {α : Type*} {le le' : α → α → Prop} [DecidableRel le] [DecidableRel le']

lemma chain'_orderedInsert (htot : ∀ x y : α, le x y ∨ le y x) (a : α) :
    ∀ l : List α, l.Chain' le → (l.orderedInsert le a).Chain' le
  | [], _ => List.chain'_singleton a
  | b :: l, h => by
    rw [List.orderedInsert]
    split_ifs with hab
    · exact List.chain'_cons.2 ⟨hab, h⟩
    · have hba : le b a := (htot a b).resolve_left hab
      refine List.chain'_cons'.2 ⟨?_, chain'_orderedInsert htot a l h.tail⟩
      intro y hy
      cases l with
      | nil =>
        simp only [List.orderedInsert_nil, List.head?_cons, Option.mem_def,
          Option.some.injEq] at hy
        exact hy ▸ hba
      | cons c m =>
        rw [List.orderedInsert] at hy
        split_ifs at hy with hac
        · simp only [List.head?_cons, Option.mem_def, Option.some.injEq] at hy
          exact hy ▸ hba
        · simp only [List.head?_cons, Option.mem_def, Option.some.injEq] at hy
          exact hy ▸ (List.chain'_cons.1 h).1

lemma chain'_insertionSort (htot : ∀ x y : α, le x y ∨ le y x) :
    ∀ l : List α, (l.insertionSort le).Chain' le
  | [] => List.chain'_nil
  | b :: l => chain'_orderedInsert htot b _ (chain'_insertionSort htot l)

lemma insertionSort_eq_of_chain' :
    ∀ l : List α, l.Chain' le → l.insertionSort le = l
  | [], _ => rfl
  | b :: l, h => by
    rw [List.insertionSort, insertionSort_eq_of_chain' l h.tail]
    cases l with
    | nil => rfl
    | cons c m => rw [List.orderedInsert, if_pos (List.chain'_cons.1 h).1]

lemma orderedInsert_congr (a : α) :
    ∀ l : List α, (∀ y ∈ l, le a y ↔ le' a y) →
      l.orderedInsert le a = l.orderedInsert le' a
  | [], _ => rfl
  | b :: l, h => by
    rw [List.orderedInsert, List.orderedInsert]
    by_cases hab : le a b
    · rw [if_pos hab, if_pos ((h b (List.mem_cons_self b l)).1 hab)]
    · rw [if_neg hab, if_neg (fun h' => hab ((h b (List.mem_cons_self b l)).2 h')),
        orderedInsert_congr a l (fun y hy => h y (List.mem_cons_of_mem b hy))]

lemma insertionSort_congr :
    ∀ l : List α, (∀ x ∈ l, ∀ y ∈ l, le x y ↔ le' x y) →
      l.insertionSort le = l.insertionSort le'
  | [], _ => rfl
  | b :: l, h => by
    rw [List.insertionSort, List.insertionSort,
      insertionSort_congr l
        (fun x hx y hy =>
          h x (List.mem_cons_of_mem b hx) y (List.mem_cons_of_mem b hy))]
    exact orderedInsert_congr b _ (fun y hy =>
      h b (List.mem_cons_self b l) y
        (List.mem_cons_of_mem b ((List.mem_insertionSort le').1 hy)))

end SortLemmas

namespace QuizApp

/-! ### The ranking order as the specification words it -/

/-- The specification's ranking order: score descending, ties by
ascending `totalTime` (a `null` time compares arithmetically as `0`, as
in the comparator), remaining ties by ascending `completedAt`. -/
def claimLE (a b : Entry) : Prop :=
  b.score < a.score ∨ (a.score = b.score ∧
    (effTime a.totalTime < effTime b.totalTime ∨
      (effTime a.totalTime = effTime b.totalTime ∧ a.completedAt ≤ b.completedAt)))

instance : DecidableRel claimLE := fun a b => by unfold claimLE; infer_instance

instance : IsTotal Entry claimLE := by
  constructor
  intro a b
  unfold claimLE
  rcases lt_trichotomy a.score b.score with h | h | h
  · right; left; exact h
  · rcases lt_trichotomy (effTime a.totalTime) (effTime b.totalTime) with h' | h' | h'
    · left; right; exact ⟨h, Or.inl h'⟩
    · rcases le_total a.completedAt b.completedAt with h'' | h''
      · left; right; exact ⟨h, Or.inr ⟨h', h''⟩⟩
      · right; right; exact ⟨h.symm, Or.inr ⟨h'.symm, h''⟩⟩
    · right; right; exact ⟨h.symm, Or.inl h'⟩
  · left; left; exact h

instance : IsTrans Entry claimLE := by
  constructor
  intro a b c hab hbc
  unfold claimLE at hab hbc ⊢
  rcases hab with h1 | ⟨h1, h1'⟩ <;> rcases hbc with h2 | ⟨h2, h2'⟩
  · left; omega
  · left; omega
  · left; omega
  · refine Or.inr ⟨by omega, ?_⟩
    rcases h1' with h3 | ⟨h3, h3'⟩ <;> rcases h2' with h4 | ⟨h4, h4'⟩
    · left; linarith
    · left; linarith
    · left; linarith
    · right; exact ⟨by linarith, le_trans h3' h4'⟩

lemma entryLE_total (a b : Entry) : entryLE a b ∨ entryLE b a := by
  unfold entryLE cmp
  by_cases hs : a.score = b.score
  · rw [if_neg (show ¬ b.score ≠ a.score by simp [hs]),
      if_neg (show ¬ a.score ≠ b.score by simp [hs])]
    by_cases ht : a.totalTime = b.totalTime
    · rw [if_neg (show ¬ a.totalTime ≠ b.totalTime by simp [ht]),
        if_neg (show ¬ b.totalTime ≠ a.totalTime by simp [ht])]
      rcases le_total (a.completedAt : ℚ) (b.completedAt : ℚ) with h | h
      · left; linarith
      · right; linarith
    · rw [if_pos (show a.totalTime ≠ b.totalTime from ht),
        if_pos (show b.totalTime ≠ a.totalTime from Ne.symm ht)]
      rcases le_total (effTime a.totalTime) (effTime b.totalTime) with h | h
      · left; linarith
      · right; linarith
  · rw [if_pos (show b.score ≠ a.score from Ne.symm hs),
      if_pos (show a.score ≠ b.score from hs)]
    rcases le_total (a.score : ℚ) (b.score : ℚ) with h | h
    · right; linarith
    · left; linarith

/-- On entries whose `totalTime` is non-`null`, the comparator order is
exactly the specification's ranking order. -/
lemma entryLE_iff_claimLE {a b : Entry} (ha : a.totalTime.isSome)
    (hb : b.totalTime.isSome) : entryLE a b ↔ claimLE a b := by
  obtain ⟨ta, hta⟩ := Option.isSome_iff_exists.1 ha
  obtain ⟨tb, htb⟩ := Option.isSome_iff_exists.1 hb
  unfold entryLE cmp claimLE effTime
  rw [hta, htb]
  simp only [Option.getD_some]
  by_cases hs : a.score = b.score
  · rw [if_neg (show ¬ b.score ≠ a.score by simp [hs])]
    by_cases ht : ta = tb
    · rw [if_neg (show ¬ (some ta ≠ some tb) by simp [ht])]
      constructor
      · intro h
        refine Or.inr ⟨hs, Or.inr ⟨ht ▸ rfl, ?_⟩⟩
        have : (a.completedAt : ℚ) ≤ (b.completedAt : ℚ) := by linarith
        exact_mod_cast this
      · rintro (h | ⟨-, h | ⟨-, h⟩⟩)
        · omega
        · exact absurd (ht ▸ h) (lt_irrefl _)
        · have : (a.completedAt : ℚ) ≤ (b.completedAt : ℚ) := by exact_mod_cast h
          linarith
    · rw [if_pos (show (some ta ≠ some tb) by simp [ht])]
      constructor
      · intro h
        exact Or.inr ⟨hs, Or.inl (lt_of_le_of_ne (by linarith) ht)⟩
      · rintro (h | ⟨-, h | ⟨h, -⟩⟩)
        · omega
        · linarith
        · exact absurd h ht
  · rw [if_pos (show b.score ≠ a.score from Ne.symm hs)]
    constructor
    · intro h
      have : (b.score : ℚ) ≤ (a.score : ℚ) := by linarith
      have hble : b.score ≤ a.score := by exact_mod_cast this
      exact Or.inl (by omega)
    · rintro (h | ⟨h, -⟩)
      · have : (b.score : ℚ) ≤ (a.score : ℚ) := by exact_mod_cast le_of_lt h
        linarith
      · exact absurd h hs

/-! ### Facts about `sortLeaderboard` -/

lemma length_sortLeaderboard_le (l : List Entry) :
    (sortLeaderboard l).length ≤ 25 := by
  unfold sortLeaderboard
  rw [List.length_take]
  exact min_le_left _ _

lemma mem_of_mem_sortLeaderboard {e : Entry} {l : List Entry}
    (h : e ∈ sortLeaderboard l) : e ∈ l :=
  (List.mem_insertionSort entryLE).1 (List.take_subset _ _ h)

lemma chain'_sortLeaderboard (l : List Entry) :
    (sortLeaderboard l).Chain' entryLE :=
  (chain'_insertionSort entryLE_total l).take 25

lemma sortLeaderboard_eq_self {l : List Entry} (h : l.Chain' entryLE)
    (hlen : l.length ≤ 25) : sortLeaderboard l = l := by
  unfold sortLeaderboard
  rw [insertionSort_eq_of_chain' l h, List.take_of_length_le hlen]

lemma sortLeaderboard_idem (l : List Entry) :
    sortLeaderboard (sortLeaderboard l) = sortLeaderboard l :=
  sortLeaderboard_eq_self (chain'_sortLeaderboard l) (length_sortLeaderboard_le l)

lemma names_nodup_sortLeaderboard {l : List Entry}
    (h : (l.map Entry.name).Nodup) :
    ((sortLeaderboard l).map Entry.name).Nodup := by
  have hperm :
      List.Perm ((List.insertionSort entryLE l).map Entry.name) (l.map Entry.name) :=
    (List.perm_insertionSort entryLE l).map Entry.name
  exact ((List.take_sublist 25 _).map Entry.name).nodup (hperm.nodup_iff.2 h)

/-- When every entry being sorted carries a non-`null` time, the sorted
output is pairwise ordered by the specification's ranking order. -/
lemma pairwise_claimLE_sortLeaderboard {l : List Entry}
    (h : ∀ e ∈ l, e.totalTime.isSome) :
    (sortLeaderboard l).Pairwise claimLE := by
  have hcongr : List.insertionSort entryLE l = List.insertionSort claimLE l :=
    insertionSort_congr l (fun x hx y hy =>
      entryLE_iff_claimLE (h x hx) (h y hy))
  have hsorted : (List.insertionSort claimLE l).Pairwise claimLE :=
    List.sorted_insertionSort claimLE l
  unfold sortLeaderboard
  rw [hcongr]
  exact hsorted.sublist (List.take_sublist 25 _)

end QuizApp

namespace QuizApp

/-! ### Facts about the leaderboard merge -/

/-- Membership in the merged list: every entry was stored before or is
the new entry. -/
lemma mem_mergeEntry {newE : Entry} {rawT : Option ℚ} :
    ∀ {l : List Entry} {e : Entry}, e ∈ mergeEntry l newE rawT → e ∈ l ∨ e = newE
  | [], e, h => by
    simp only [mergeEntry, List.mem_singleton] at h
    exact Or.inr h
  | cur :: rest, e, h => by
    rw [mergeEntry] at h
    by_cases hname : cur.name = newE.name
    · rw [if_pos hname] at h
      rcases List.mem_cons.1 h with h' | h'
      · by_cases hrepl : replCond newE cur rawT = true
        · rw [if_pos hrepl] at h'
          exact Or.inr h'
        · rw [if_neg hrepl] at h'
          exact Or.inl (by rw [h']; exact List.mem_cons_self cur rest)
      · exact Or.inl (List.mem_cons_of_mem cur h')
    · rw [if_neg hname] at h
      rcases List.mem_cons.1 h with h' | h'
      · exact Or.inl (by rw [h']; exact List.mem_cons_self cur rest)
      · rcases mem_mergeEntry h' with h'' | h''
        · exact Or.inl (List.mem_cons_of_mem cur h'')
        · exact Or.inr h''

/-- When no stored entry carries the submitted name, the new entry is
appended at the end. -/
lemma mergeEntry_of_not_mem {newE : Entry} {rawT : Option ℚ} :
    ∀ {l : List Entry}, (∀ e ∈ l, e.name ≠ newE.name) →
      mergeEntry l newE rawT = l ++ [newE]
  | [], _ => rfl
  | cur :: rest, h => by
    rw [mergeEntry, if_neg (h cur (List.mem_cons_self cur rest)),
      mergeEntry_of_not_mem (fun e he => h e (List.mem_cons_of_mem cur he))]
    rfl

/-- The merge at the first stored entry carrying the submitted name:
replace it in place if the new attempt is better, else keep everything. -/
lemma mergeEntry_first (newE cur : Entry) (rawT : Option ℚ) :
    ∀ (pre suf : List Entry), (∀ e ∈ pre, e.name ≠ newE.name) →
      cur.name = newE.name →
      mergeEntry (pre ++ cur :: suf) newE rawT =
        pre ++ (if replCond newE cur rawT then newE else cur) :: suf
  | [], suf, _, hcur => by rw [List.nil_append, mergeEntry, if_pos hcur]; rfl
  | p :: pre, suf, hpre, hcur => by
    rw [List.cons_append, mergeEntry,
      if_neg (hpre p (List.mem_cons_self p pre)),
      mergeEntry_first newE cur rawT pre suf
        (fun e he => hpre e (List.mem_cons_of_mem p he)) hcur,
      List.cons_append]

/-- If some stored entry carries the name and none of the stored entries
carrying it would be replaced, the merge leaves the list unchanged. -/
lemma mergeEntry_eq_self {newE : Entry} {rawT : Option ℚ} :
    ∀ {l : List Entry}, (∃ e ∈ l, e.name = newE.name) →
      (∀ e ∈ l, e.name = newE.name → replCond newE e rawT = false) →
      mergeEntry l newE rawT = l
  | [], hmem, _ => by simp at hmem
  | cur :: rest, hmem, hkeep => by
    rw [mergeEntry]
    by_cases hname : cur.name = newE.name
    · rw [if_pos hname,
        if_neg (by simp [hkeep cur (List.mem_cons_self cur rest) hname])]
    · rw [if_neg hname]
      obtain ⟨e, he, hen⟩ := hmem
      rcases List.mem_cons.1 he with rfl | he'
      · exact absurd hen hname
      · rw [mergeEntry_eq_self ⟨e, he', hen⟩
          (fun e' he'' h => hkeep e' (List.mem_cons_of_mem cur he'') h)]

/-- The merged list's names stay duplicate-free, since a replacement
keeps the name in place and an append introduces a fresh name. -/
lemma names_nodup_mergeEntry {newE : Entry} {rawT : Option ℚ} :
    ∀ {l : List Entry}, (l.map Entry.name).Nodup →
      ((mergeEntry l newE rawT).map Entry.name).Nodup
  | [], _ => List.nodup_singleton _
  | cur :: rest, h => by
    rw [mergeEntry]
    rw [List.map_cons, List.nodup_cons] at h
    by_cases hname : cur.name = newE.name
    · rw [if_pos hname, List.map_cons, List.nodup_cons]
      by_cases hrepl : replCond newE cur rawT = true
      · rw [if_pos hrepl]
        exact ⟨by rw [← hname]; exact h.1, h.2⟩
      · rw [if_neg hrepl]
        exact ⟨h.1, h.2⟩
    · rw [if_neg hname, List.map_cons, List.nodup_cons]
      refine ⟨fun hmem => ?_, names_nodup_mergeEntry h.2⟩
      rw [List.mem_map] at hmem
      obtain ⟨e, he, hname'⟩ := hmem
      rcases mem_mergeEntry he with h' | rfl
      · exact h.1 (List.mem_map.2 ⟨e, h', hname'⟩)
      · exact hname hname'.symm

/-- The replacement condition of the code coincides with the
specification's phrasing of the merge rule. -/
def claimShouldReplace (newE cur : Entry) (rawT : Option ℚ) : Prop :=
  cur.score < newE.score ∨ (newE.score = cur.score ∧
    ∃ t ct, rawT = some t ∧ cur.totalTime = some ct ∧ t < ct)

lemma replCond_iff {newE cur : Entry} {rawT : Option ℚ} :
    replCond newE cur rawT = true ↔ claimShouldReplace newE cur rawT := by
  unfold replCond claimShouldReplace isFaster
  cases rawT with
  | none =>
    cases cur.totalTime <;> simp
  | some t =>
    cases htc : cur.totalTime with
    | none => simp
    | some ct => simp

end QuizApp

namespace QuizApp

/-! ### Facts about answer normalization -/

lemma contains_iff_mem {l : List Int} {a : Int} : l.contains a = true ↔ a ∈ l := by
  simp [List.contains_eq_any_beq]

lemma length_normStep_le (bank : List Question) (idx : ℕ) (acc : List (Int × Int))
    (e : RawAnswer) : (normStep bank idx acc e).length ≤ acc.length + 1 := by
  cases e with
  | pair qid ci =>
    rw [normStep]
    split_ifs
    · simp
    · omega
  | num v =>
    rw [normStep]
    cases bank.get? idx with
    | some q =>
      simp only
      split_ifs
      · simp
      · omega
    | none => simp
  | invalid => simp [normStep]

lemma length_normGo_le (bank : List Question) :
    ∀ (raw : List RawAnswer) (idx : ℕ) (acc : List (Int × Int)),
      (normGo bank raw idx acc).length ≤ acc.length + raw.length
  | [], _, acc => by simp [normGo]
  | e :: rest, idx, acc => by
    rw [normGo]
    have h1 := length_normGo_le bank rest (idx + 1) (normStep bank idx acc e)
    have h2 := length_normStep_le bank idx acc e
    simp only [List.length_cons]
    omega

lemma hasKey_append {m : List (Int × Int)} {pr : Int × Int} {q : Int}
    (h : hasKey m q = true) : hasKey (m ++ [pr]) q = true := by
  unfold hasKey at h ⊢
  rw [List.any_append, h, Bool.true_or]

lemma hasKey_normStep_mono {bank : List Question} {idx : ℕ}
    {acc : List (Int × Int)} {q : Int} (e : RawAnswer)
    (h : hasKey acc q = true) : hasKey (normStep bank idx acc e) q = true := by
  cases e with
  | pair qid ci =>
    rw [normStep]
    split_ifs
    · exact hasKey_append h
    · exact h
  | num v =>
    rw [normStep]
    cases bank.get? idx with
    | some qq =>
      simp only
      split_ifs
      · exact hasKey_append h
      · exact h
    | none => exact h
  | invalid => exact h

/-- Processing a payload entry whose question id is already mapped (or
any entry at all) while the id stays mapped afterwards. -/
lemma hasKey_normStep_pair {bank : List Question} {idx : ℕ}
    {acc : List (Int × Int)} {qid ci : Int}
    (hqid : (bankIds bank).contains qid = true) :
    hasKey (normStep bank idx acc (.pair qid ci)) qid = true := by
  rw [normStep]
  by_cases hk : hasKey acc qid = true
  · split_ifs
    · exact hasKey_append hk
    · exact hk
  · rw [if_pos (by rw [hqid, Bool.eq_false_iff.2 hk]; rfl)]
    unfold hasKey
    rw [List.any_append]
    simp [hasKey] at hk ⊢

/-- Once the id of a later `{questionId, choiceIndex}` entry is already
mapped, the final map stays strictly smaller than the payload. -/
lemma length_normGo_lt_of_hasKey (bank : List Question) :
    ∀ (raw : List RawAnswer) (idx : ℕ) (acc : List (Int × Int)) (qid ci : Int),
      RawAnswer.pair qid ci ∈ raw → hasKey acc qid = true →
      (normGo bank raw idx acc).length < acc.length + raw.length
  | [], _, _, _, _, hmem, _ => by simp at hmem
  | e :: rest, idx, acc, qid, ci, hmem, hk => by
    rw [normGo]
    rcases List.mem_cons.1 hmem with rfl | hmem'
    · have hstep : normStep bank idx acc (.pair qid ci) = acc := by
        rw [normStep, if_neg]
        rw [hk]
        simp
      rw [hstep]
      have := length_normGo_le bank rest (idx + 1) acc
      simp only [List.length_cons]
      omega
    · have h1 := length_normGo_lt_of_hasKey bank rest (idx + 1)
        (normStep bank idx acc e) qid ci hmem' (hasKey_normStep_mono e hk)
      have h2 := length_normStep_le bank idx acc e
      simp only [List.length_cons]
      omega

/-- A `{questionId, choiceIndex}` entry whose id is not in the bank makes
the final map strictly smaller than the payload. -/
lemma length_normGo_lt_of_unknown (bank : List Question) :
    ∀ (raw : List RawAnswer) (idx : ℕ) (acc : List (Int × Int)) (qid ci : Int),
      RawAnswer.pair qid ci ∈ raw → qid ∉ bankIds bank →
      (normGo bank raw idx acc).length < acc.length + raw.length
  | [], _, _, _, _, hmem, _ => by simp at hmem
  | e :: rest, idx, acc, qid, ci, hmem, hqid => by
    rw [normGo]
    rcases List.mem_cons.1 hmem with rfl | hmem'
    · have hstep : normStep bank idx acc (.pair qid ci) = acc := by
        rw [normStep, if_neg]
        rw [Bool.eq_false_iff.2 (fun hc => hqid (contains_iff_mem.1 hc))]
        simp
      rw [hstep]
      have := length_normGo_le bank rest (idx + 1) acc
      simp only [List.length_cons]
      omega
    · have h1 := length_normGo_lt_of_unknown bank rest (idx + 1)
        (normStep bank idx acc e) qid ci hmem' hqid
      have h2 := length_normStep_le bank idx acc e
      simp only [List.length_cons]
      omega

/-- Two `{questionId, choiceIndex}` entries with the same id make the
final map strictly smaller than the payload. -/
lemma length_normGo_lt_of_dup (bank : List Question) :
    ∀ (raw : List RawAnswer) (idx : ℕ) (acc : List (Int × Int))
      (i j : ℕ) (qid ci cj : Int), i < j →
      raw.get? i = some (.pair qid ci) → raw.get? j = some (.pair qid cj) →
      (normGo bank raw idx acc).length < acc.length + raw.length
  | [], _, _, i, _, _, _, _, _, hi, _ => by simp at hi
  | e :: rest, idx, acc, i, j, qid, ci, cj, hij, hi, hj => by
    rw [normGo]
    cases i with
    | zero =>
      obtain ⟨j', rfl⟩ : ∃ j', j = j' + 1 := ⟨j - 1, by omega⟩
      simp only [List.get?_cons_zero, Option.some.injEq] at hi
      subst hi
      simp only [List.get?_cons_succ] at hj
      by_cases hqid : (bankIds bank).contains qid = true
      · have h1 := length_normGo_lt_of_hasKey bank rest (idx + 1)
          (normStep bank idx acc (.pair qid ci)) qid cj
          (List.get?_mem hj) (hasKey_normStep_pair hqid)
        have h2 := length_normStep_le bank idx acc (.pair qid ci)
        simp only [List.length_cons]
        omega
      · have h1 := length_normGo_lt_of_unknown bank rest (idx + 1)
          (normStep bank idx acc (.pair qid ci)) qid cj
          (List.get?_mem hj) (fun hm => hqid (contains_iff_mem.2 hm))
        have h2 := length_normStep_le bank idx acc (.pair qid ci)
        simp only [List.length_cons]
        omega
    | succ i' =>
      obtain ⟨j', rfl⟩ : ∃ j', j = j' + 1 := ⟨j - 1, by omega⟩
      simp only [List.get?_cons_succ] at hi hj
      have h1 := length_normGo_lt_of_dup bank rest (idx + 1)
        (normStep bank idx acc e) i' j' qid ci cj (by omega) hi hj
      have h2 := length_normStep_le bank idx acc e
      simp only [List.length_cons]
      omega

/-- Every id in the normalized map belongs to the question bank. -/
lemma mem_normGo_ids (bank : List Question) :
    ∀ (raw : List RawAnswer) (idx : ℕ) (acc : List (Int × Int)) (pr : Int × Int),
      pr ∈ normGo bank raw idx acc → pr ∈ acc ∨ pr.1 ∈ bankIds bank
  | [], _, _, pr, h => Or.inl (by simpa [normGo] using h)
  | e :: rest, idx, acc, pr, h => by
    rw [normGo] at h
    rcases mem_normGo_ids bank rest (idx + 1) (normStep bank idx acc e) pr h
      with h' | h'
    · cases e with
      | pair qid ci =>
        rw [normStep] at h'
        split_ifs at h' with hc
        · rcases List.mem_append.1 h' with h'' | h''
          · exact Or.inl h''
          · simp only [List.mem_singleton] at h''
            subst h''
            exact Or.inr (contains_iff_mem.1 (by
              rw [Bool.and_eq_true] at hc
              exact hc.1))
        · exact Or.inl h'
      | num v =>
        rw [normStep] at h'
        cases hq : bank.get? idx with
        | some q =>
          rw [hq] at h'
          simp only at h'
          split_ifs at h' with hc
          · rcases List.mem_append.1 h' with h'' | h''
            · exact Or.inl h''
            · simp only [List.mem_singleton] at h''
              subst h''
              exact Or.inr (contains_iff_mem.1 (by
                rw [Bool.and_eq_true] at hc
                exact hc.1))
          · exact Or.inl h'
        | none =>
          rw [hq] at h'
          exact Or.inl h'
      | invalid => exact Or.inl h'
    · exact Or.inr h'

end QuizApp

namespace QuizApp

/-! ### Handler path facts -/

lemma normalizeAnswers_eq_none {bank : List Question} {raw : List RawAnswer}
    (h : (normGo bank raw 0 []).length ≠ raw.length) :
    normalizeAnswers bank (some raw) = none := by
  rw [normalizeAnswers]
  by_cases he : raw.isEmpty
  · rw [if_pos he]
  · rw [if_neg he, if_neg h]

lemma normalizeAnswers_some {bank : List Question} {oraw : Option (List RawAnswer)}
    {m : List (Int × Int)} (h : normalizeAnswers bank oraw = some m) :
    ∃ raw, oraw = some raw ∧ m = normGo bank raw 0 [] ∧
      m.length = raw.length ∧ raw ≠ [] := by
  cases oraw with
  | none => simp [normalizeAnswers] at h
  | some raw =>
    rw [normalizeAnswers] at h
    by_cases he : raw.isEmpty
    · rw [if_pos he] at h
      exact absurd h (by simp)
    · rw [if_neg he] at h
      by_cases hlen : (normGo bank raw 0 []).length = raw.length
      · rw [if_pos hlen] at h
        simp only [Option.some.injEq] at h
        subst h
        refine ⟨raw, rfl, rfl, hlen, fun hr => ?_⟩
        rw [hr] at he
        simp at he
      · rw [if_neg hlen] at h
        exact absurd h (by simp)

lemma handleSubmit_of_name_empty {bank : List Question} {p : SubmitPayload}
    {store : List Entry} {now : ℕ} (h : sanitizeName p.playerName = []) :
    handleSubmit bank p store now = (.badRequest, store) := by
  rw [handleSubmit, if_pos h]

lemma handleSubmit_of_none {bank : List Question} {p : SubmitPayload}
    {store : List Entry} {now : ℕ}
    (h : normalizeAnswers bank p.answers = none) :
    handleSubmit bank p store now = (.badRequest, store) := by
  rw [handleSubmit]
  split_ifs
  · rfl
  · rw [h]

lemma handleSubmit_ok {bank : List Question} {p : SubmitPayload}
    {m : List (Int × Int)} (store : List Entry) (now : ℕ)
    (hname : sanitizeName p.playerName ≠ [])
    (hm : normalizeAnswers bank p.answers = some m)
    (hlen : m.length ≠ 0)
    (hfound : ∀ pr ∈ m, (findQ bank pr.1).isSome) :
    handleSubmit bank p store now =
      (.ok (submitScore bank m) m.length
        (sortLeaderboard
          (mergeEntry store (newEntryOf bank p m now) (parseTime p.totalTime))),
       sortLeaderboard
         (mergeEntry store (newEntryOf bank p m now) (parseTime p.totalTime))) := by
  rw [handleSubmit, if_neg hname, hm]
  simp only
  have hany : (m.any fun pr => (findQ bank pr.1).isNone) = false := by
    rw [List.any_eq_false]
    intro pr hpr
    obtain ⟨q, hq⟩ := Option.isSome_iff_exists.1 (hfound pr hpr)
    simp [hq]
  rw [if_neg hlen, if_neg (by rw [hany]; simp)]

lemma findQ_isSome_of_mem_bankIds {bank : List Question} {qid : Int}
    (h : qid ∈ bankIds bank) : (findQ bank qid).isSome := by
  rw [findQ, List.find?_isSome]
  rw [bankIds, List.mem_map] at h
  obtain ⟨q, hq, rfl⟩ := h
  exact ⟨q, List.mem_reverse.2 hq, by simp⟩

lemma normalizeAnswers_keys {bank : List Question} {oraw : Option (List RawAnswer)}
    {m : List (Int × Int)} (h : normalizeAnswers bank oraw = some m) :
    ∀ pr ∈ m, pr.1 ∈ bankIds bank := by
  obtain ⟨raw, -, rfl, -, -⟩ := normalizeAnswers_some h
  intro pr hpr
  rcases mem_normGo_ids bank raw 0 [] pr hpr with h' | h'
  · simp at h'
  · exact h'

/-- The success/failure dichotomy of the handler: either a 400 with the
store untouched, or the full success shape. -/
lemma handleSubmit_shape (bank : List Question) (p : SubmitPayload)
    (store : List Entry) (now : ℕ) :
    handleSubmit bank p store now = (.badRequest, store) ∨
    ∃ m, normalizeAnswers bank p.answers = some m ∧
      sanitizeName p.playerName ≠ [] ∧ m.length ≠ 0 ∧
      handleSubmit bank p store now =
        (.ok (submitScore bank m) m.length
          (sortLeaderboard
            (mergeEntry store (newEntryOf bank p m now) (parseTime p.totalTime))),
         sortLeaderboard
           (mergeEntry store (newEntryOf bank p m now) (parseTime p.totalTime))) := by
  by_cases hname : sanitizeName p.playerName = []
  · exact Or.inl (handleSubmit_of_name_empty hname)
  cases hm : normalizeAnswers bank p.answers with
  | none => exact Or.inl (handleSubmit_of_none hm)
  | some m =>
    have hlen : m.length ≠ 0 := by
      obtain ⟨raw, -, -, hlen, hraw⟩ := normalizeAnswers_some hm
      rw [hlen]
      intro h0
      exact hraw (List.length_eq_zero.1 h0)
    have hfound : ∀ pr ∈ m, (findQ bank pr.1).isSome := fun pr hpr =>
      findQ_isSome_of_mem_bankIds (normalizeAnswers_keys hm pr hpr)
    exact Or.inr ⟨m, rfl, hname, hlen, handleSubmit_ok store now hname hm hlen hfound⟩

/-! ### Facts about `findQ` and unique ids -/

lemma findQ_mem {bank : List Question} {qid : Int} {q : Question}
    (h : findQ bank qid = some q) : q ∈ bank ∧ q.id = qid := by
  have hm := List.mem_of_find?_eq_some h
  have hp := List.find?_some h
  exact ⟨List.mem_reverse.1 hm, by simpa using hp⟩

lemma question_unique {bank : List Question} (hids : (bankIds bank).Nodup) :
    ∀ {q1 q2 : Question}, q1 ∈ bank → q2 ∈ bank → q1.id = q2.id → q1 = q2 := by
  induction bank with
  | nil => intro q1 q2 h1; simp at h1
  | cons q rest ih =>
    rw [bankIds, List.map_cons, List.nodup_cons] at hids
    intro q1 q2 h1 h2 heq
    rcases List.mem_cons.1 h1 with rfl | h1' <;> rcases List.mem_cons.1 h2 with rfl | h2'
    · rfl
    · refine absurd ?_ hids.1
      rw [heq]
      exact List.mem_map.2 ⟨q2, h2', rfl⟩
    · refine absurd ?_ hids.1
      rw [← heq]
      exact List.mem_map.2 ⟨q1, h1', rfl⟩
    · exact ih hids.2 h1' h2' heq

/-! ### Facts about `sanitizeName` -/

lemma length_sanitizeName_le (l : List Char) : (sanitizeName l).length ≤ 32 := by
  rw [sanitizeName, List.length_take]
  exact min_le_left _ _

lemma mem_collapseGo_ws : ∀ (b : Bool) (l : List Char) (c : Char),
    c ∈ collapseGo b l → isJsWs c = true → c = ' '
  | _, [], c, h, _ => by simp [collapseGo] at h
  | b, d :: rest, c, h, hws => by
    rw [collapseGo] at h
    split_ifs at h with h1 h2
    · exact mem_collapseGo_ws true rest c h hws
    · rcases List.mem_cons.1 h with rfl | h'
      · rfl
      · exact mem_collapseGo_ws true rest c h' hws
    · rcases List.mem_cons.1 h with rfl | h'
      · exact absurd hws h1
      · exact mem_collapseGo_ws false rest c h' hws

lemma mem_trimWs {l : List Char} {c : Char} (h : c ∈ trimWs l) : c ∈ l := by
  rw [trimWs] at h
  rw [List.mem_reverse] at h
  have h1 := (List.dropWhile_suffix (isJsWs ·)).subset h
  rw [List.mem_reverse] at h1
  exact (List.dropWhile_suffix (isJsWs ·)).subset h1

lemma mem_sanitizeName_ws {l : List Char} {c : Char} (h : c ∈ sanitizeName l)
    (hws : isJsWs c = true) : c = ' ' := by
  rw [sanitizeName] at h
  exact mem_collapseGo_ws false l c (mem_trimWs (List.take_subset _ _ h)) hws

lemma head?_dropWhile {p : α → Bool} : ∀ {l : List α} {c : α},
    (l.dropWhile p).head? = some c → p c = false
  | [], c, h => by simp [List.dropWhile] at h
  | a :: rest, c, h => by
    rw [List.dropWhile_cons] at h
    split_ifs at h with ha
    · exact head?_dropWhile h
    · simp only [List.head?_cons, Option.some.injEq] at h
      rw [← h]
      exact Bool.eq_false_iff.2 ha

lemma head?_sanitizeName {l : List Char} {c : Char}
    (h : (sanitizeName l).head? = some c) : isJsWs c = false := by
  rw [sanitizeName] at h
  have htrim : (trimWs (collapseWs l)).head? = some c := by
    cases ht : trimWs (collapseWs l) with
    | nil => rw [ht] at h; simp at h
    | cons d rest =>
      rw [ht, show (32 : ℕ) = 31 + 1 from rfl, List.take_succ_cons] at h
      simpa using h
  rw [trimWs, List.head?_reverse] at htrim
  have hsuffix :
      ((((collapseWs l).dropWhile (isJsWs ·)).reverse).dropWhile (isJsWs ·)) <:+
        (((collapseWs l).dropWhile (isJsWs ·)).reverse) :=
    List.dropWhile_suffix _
  obtain ⟨pre, hpre⟩ := hsuffix
  have hlast : (((collapseWs l).dropWhile (isJsWs ·)).reverse).getLast? = some c := by
    rw [← hpre, List.getLast?_append, htrim]
    rfl
  rw [List.getLast?_reverse] at hlast
  exact head?_dropWhile hlast

end QuizApp

namespace QuizApp

/-! ### The Fisher-Yates shuffle permutes the bank -/

lemma cons_set_perm {α : Type*} :
    ∀ {t : List α} {k : ℕ} {y a : α}, t.get? k = some y →
      List.Perm (y :: t.set k a) (a :: t)
  | [], k, _, _, h => by simp at h
  | b :: t', 0, y, a, h => by
    simp only [List.get?_cons_zero, Option.some.injEq] at h
    subst h
    rw [List.set_cons_zero]
    exact List.Perm.swap a b t'
  | b :: t', k + 1, y, a, h => by
    simp only [List.get?_cons_succ] at h
    rw [List.set_cons_succ]
    exact (List.Perm.swap b y (t'.set k a)).trans
      (((cons_set_perm h).cons b).trans (List.Perm.swap a b t'))

lemma listSwap_perm {α : Type*} :
    ∀ (l : List α) (i j : ℕ), List.Perm (listSwap l i j) l := by
  intro l i j
  rw [listSwap]
  cases hi : l.get? i with
  | none => exact List.Perm.refl l
  | some x =>
    cases hj : l.get? j with
    | none => exact List.Perm.refl l
    | some y =>
      simp only
      induction l generalizing i j with
      | nil => simp at hi
      | cons a t ih =>
        cases i with
        | zero =>
          simp only [List.get?_cons_zero, Option.some.injEq] at hi
          subst hi
          cases j with
          | zero =>
            simp only [List.get?_cons_zero, Option.some.injEq] at hj
            subst hj
            rw [List.set_cons_zero, List.set_cons_zero]
          | succ k =>
            simp only [List.get?_cons_succ] at hj
            rw [List.set_cons_zero, List.set_cons_succ]
            exact cons_set_perm hj
        | succ mi =>
          simp only [List.get?_cons_succ] at hi
          cases j with
          | zero =>
            simp only [List.get?_cons_zero, Option.some.injEq] at hj
            subst hj
            rw [List.set_cons_succ, List.set_cons_zero]
            exact cons_set_perm hi
          | succ k =>
            simp only [List.get?_cons_succ] at hj
            rw [List.set_cons_succ, List.set_cons_succ]
            exact (ih mi k hi hj).cons a

lemma fyAux_perm {α : Type*} (js : ℕ → ℕ) :
    ∀ (n : ℕ) (l : List α), List.Perm (fyAux js n l) l
  | 0, l => List.Perm.refl l
  | n + 1, l =>
    (fyAux_perm js n (listSwap l (n + 1) (js (n + 1)))).trans
      (listSwap_perm l (n + 1) (js (n + 1)))

lemma shuffleQuestions_perm (js : ℕ → ℕ) (l : List Question) :
    List.Perm (shuffleQuestions js l) l :=
  fyAux_perm js (l.length - 1) l

end QuizApp

namespace QuizApp

/-- Claim C1: on a submission under name `N` with score `S` and time `T`,
when the stored leaderboard already contains an entry for `N` (decomposed
as the first such entry `cur`), the merge replaces that entry in place
with the new one iff `S > cur.score`, or `S = cur.score` with both `T`
and `cur.totalTime` non-null and `T < cur.totalTime`; in every other
case the store is unchanged and the new entry is discarded.  When no
entry for `N` exists, the new entry is appended at the end. -/
theorem merge_rule_spec (store : List Entry) (newE : Entry) (rawT : Option ℚ) :
    ((∀ e ∈ store, e.name ≠ newE.name) →
      mergeEntry store newE rawT = store ++ [newE]) ∧
    (∀ pre cur suf, store = pre ++ cur :: suf →
      (∀ e ∈ pre, e.name ≠ newE.name) → cur.name = newE.name →
      (claimShouldReplace newE cur rawT →
        mergeEntry store newE rawT = pre ++ newE :: suf) ∧
      (¬ claimShouldReplace newE cur rawT →
        mergeEntry store newE rawT = store)) := by
  refine ⟨fun h => mergeEntry_of_not_mem h, ?_⟩
  rintro pre cur suf rfl hpre hcur
  constructor
  · intro hrepl
    rw [mergeEntry_first newE cur rawT pre suf hpre hcur,
      if_pos (replCond_iff.2 hrepl)]
  · intro hrepl
    rw [mergeEntry_first newE cur rawT pre suf hpre hcur,
      if_neg (fun hc => hrepl (replCond_iff.1 hc))]

/-- The merge-rule theorem applied at the specification's own example: an
existing entry at score 3 / time 40 is replaced by a same-score attempt
at time 35, and a score-2 attempt is discarded. -/
theorem merge_rule_spec_witness :
    mergeEntry [⟨['a'], 3, 5, some 40, 0⟩] ⟨['a'], 3, 5, some 35, 7⟩ (some 35) =
      [⟨['a'], 3, 5, some 35, 7⟩] ∧
    mergeEntry [⟨['a'], 3, 5, some 40, 0⟩] ⟨['a'], 2, 5, some 10, 7⟩ (some 10) =
      [⟨['a'], 3, 5, some 40, 0⟩] := by
  constructor
  · have h := ((merge_rule_spec [⟨['a'], 3, 5, some 40, 0⟩]
      ⟨['a'], 3, 5, some 35, 7⟩ (some 35)).2 [] ⟨['a'], 3, 5, some 40, 0⟩ [] rfl
      (by simp) rfl).1
    exact h (Or.inr ⟨rfl, 35, 40, rfl, rfl, by norm_num⟩)
  · have h := ((merge_rule_spec [⟨['a'], 3, 5, some 40, 0⟩]
      ⟨['a'], 2, 5, some 10, 7⟩ (some 10)).2 [] ⟨['a'], 3, 5, some 40, 0⟩ [] rfl
      (by simp) rfl).2
    refine h ?_
    rintro (h2 | ⟨h2, -⟩)
    · simp at h2
    · simp at h2

/-- Claim C10: in the comparator used for every write and display, two
same-score entries of which exactly one has a `null` time order the
`null`-time entry first whenever the other records a positive time (the
`null` compares arithmetically as `0`). -/
theorem null_time_ranks_first (a b : Entry) (t : ℚ)
    (hscore : a.score = b.score) (ha : a.totalTime = none)
    (hb : b.totalTime = some t) (ht : 0 < t) :
    cmp a b < 0 ∧ sortLeaderboard [b, a] = [a, b] := by
  have hne : a.totalTime ≠ b.totalTime := by rw [ha, hb]; simp
  have hcmp : cmp a b = -t := by
    rw [cmp, if_neg (show ¬ b.score ≠ a.score by simp [hscore]), if_pos hne,
      ha, hb]
    simp [effTime]
  have hcmp' : cmp b a = t := by
    rw [cmp, if_neg (show ¬ a.score ≠ b.score by simp [hscore]),
      if_pos (Ne.symm hne), ha, hb]
    simp [effTime]
  have hba : ¬ entryLE b a := by
    rw [entryLE, hcmp']
    linarith
  refine ⟨by rw [hcmp]; linarith, ?_⟩
  rw [sortLeaderboard]
  simp only [List.insertionSort, List.orderedInsert]
  rw [if_neg hba]
  rfl

/-- The `null`-time ordering applied at a concrete pair: a `null`-time
entry ranks above a same-score entry that took 12.5 seconds. -/
theorem null_time_ranks_first_witness :
    cmp ⟨['a'], 2, 3, none, 9⟩ ⟨['b'], 2, 3, some (25 / 2), 4⟩ < 0 ∧
    sortLeaderboard [⟨['b'], 2, 3, some (25 / 2), 4⟩, ⟨['a'], 2, 3, none, 9⟩] =
      [⟨['a'], 2, 3, none, 9⟩, ⟨['b'], 2, 3, some (25 / 2), 4⟩] :=
  null_time_ranks_first ⟨['a'], 2, 3, none, 9⟩ ⟨['b'], 2, 3, some (25 / 2), 4⟩
    (25 / 2) rfl rfl rfl (by norm_num)

end QuizApp

namespace QuizApp

/-- Claim C3: an empty answers collection, an entry referencing a
question id outside the bank, two entries with the same question id, or
any mismatch between the number of distinct valid entries and the number
of submitted entries makes the whole submission fail with a 400, leaving
the stored leaderboard unchanged and returning no score. -/
theorem reject_bad_answers (bank : List Question) (p : SubmitPayload)
    (store : List Entry) (now : ℕ) (raw : List RawAnswer)
    (hraw : p.answers = some raw)
    (hbad : raw = [] ∨
      (∃ qid ci, RawAnswer.pair qid ci ∈ raw ∧ qid ∉ bankIds bank) ∨
      (∃ i j qid ci cj, i < j ∧ raw.get? i = some (.pair qid ci) ∧
        raw.get? j = some (.pair qid cj)) ∨
      (normGo bank raw 0 []).length ≠ raw.length) :
    handleSubmit bank p store now = (.badRequest, store) := by
  have hnone : normalizeAnswers bank (some raw) = none := by
    rcases hbad with rfl | ⟨qid, ci, hmem, hqid⟩ |
        ⟨i, j, qid, ci, cj, hij, hi, hj⟩ | hne
    · rw [normalizeAnswers, if_pos (by simp)]
    · refine normalizeAnswers_eq_none ?_
      have := length_normGo_lt_of_unknown bank raw 0 [] qid ci hmem hqid
      simp only [List.length_nil] at this
      omega
    · refine normalizeAnswers_eq_none ?_
      have := length_normGo_lt_of_dup bank raw 0 [] i j qid ci cj hij hi hj
      simp only [List.length_nil] at this
      omega
    · exact normalizeAnswers_eq_none hne
  refine handleSubmit_of_none ?_
  rw [hraw]
  exact hnone

/-- Rejection applied at a concrete duplicate payload: answering question
1 twice is rejected and the stored leaderboard survives unchanged. -/
theorem reject_bad_answers_witness :
    handleSubmit [⟨1, "q", ["a", "b"], 0⟩]
      ⟨['u'], some [.pair 1 0, .pair 1 1], some 3⟩
      [⟨['z'], 1, 1, some 2, 0⟩] 9 =
      (.badRequest, [⟨['z'], 1, 1, some 2, 0⟩]) := by
  refine reject_bad_answers _ _ _ _ [.pair 1 0, .pair 1 1] rfl ?_
  right
  right
  left
  exact ⟨0, 1, 1, 0, 1, by omega, rfl, rfl⟩

/-- The function `submitScore` counts exactly the entries whose choice index equals
the referenced bank question's answer index (ids unique in the bank). -/
lemma submitScore_spec {bank : List Question} {m : List (Int × Int)}
    (hids : (bankIds bank).Nodup)
    (hkeys : ∀ pr ∈ m, pr.1 ∈ bankIds bank) :
    submitScore bank m =
      m.countP fun pr => decide (∃ q ∈ bank, q.id = pr.1 ∧ q.answer = pr.2) := by
  rw [submitScore]
  refine List.countP_congr ?_
  intro pr hpr
  obtain ⟨q0, hq0⟩ := Option.isSome_iff_exists.1
    (findQ_isSome_of_mem_bankIds (hkeys pr hpr))
  obtain ⟨hq0mem, hq0id⟩ := findQ_mem hq0
  simp only [hq0, decide_eq_true_eq]
  constructor
  · intro hans
    exact ⟨q0, hq0mem, hq0id, hans⟩
  · rintro ⟨q, hqmem, hqid, hans⟩
    rw [question_unique hids hq0mem hqmem (by rw [hq0id, hqid]), hans]

/-- Claim C4: on every validated submission, the returned score equals
the number of entries whose choice index matches the referenced
question's answer index, and the returned total equals the number of
validated entries (not the bank size). -/
theorem score_total_spec (bank : List Question) (p : SubmitPayload)
    (store : List Entry) (now : ℕ) (m : List (Int × Int))
    (hids : (bankIds bank).Nodup)
    (hname : sanitizeName p.playerName ≠ [])
    (hm : normalizeAnswers bank p.answers = some m) :
    ((handleSubmit bank p store now).1).scoreOf =
      some (m.countP fun pr =>
        decide (∃ q ∈ bank, q.id = pr.1 ∧ q.answer = pr.2)) ∧
    ((handleSubmit bank p store now).1).totalOf = some m.length := by
  have hlen : m.length ≠ 0 := by
    obtain ⟨raw, -, -, hlen, hraw⟩ := normalizeAnswers_some hm
    rw [hlen]
    intro h0
    exact hraw (List.length_eq_zero.1 h0)
  have hfound : ∀ pr ∈ m, (findQ bank pr.1).isSome := fun pr hpr =>
    findQ_isSome_of_mem_bankIds (normalizeAnswers_keys hm pr hpr)
  rw [handleSubmit_ok store now hname hm hlen hfound]
  simp only [SubmitOutcome.scoreOf, SubmitOutcome.totalOf]
  refine ⟨?_, ?_⟩
  · rw [submitScore_spec hids (normalizeAnswers_keys hm)]
  · trivial

/-- Scoring applied at a concrete two-question bank answered on a single
question: one correct answer scores 1 with total 1, which differs from
the bank size 2 (variable-length quizzes). -/
theorem score_total_spec_witness :
    ((handleSubmit [⟨1, "q1", ["a", "b"], 0⟩, ⟨2, "q2", ["a", "b"], 1⟩]
        (SubmitPayload.mk ['u'] (some [RawAnswer.pair 2 1]) (some 4))
        [] 3).1).scoreOf = some 1 ∧
    ((handleSubmit [⟨1, "q1", ["a", "b"], 0⟩, ⟨2, "q2", ["a", "b"], 1⟩]
        (SubmitPayload.mk ['u'] (some [RawAnswer.pair 2 1]) (some 4))
        [] 3).1).totalOf = some 1 ∧
    (1 : ℕ) ≠ ([⟨1, "q1", ["a", "b"], 0⟩, ⟨2, "q2", ["a", "b"], 1⟩] : List Question).length := by
  have h := score_total_spec [⟨1, "q1", ["a", "b"], 0⟩, ⟨2, "q2", ["a", "b"], 1⟩]
    (SubmitPayload.mk ['u'] (some [RawAnswer.pair 2 1]) (some 4)) [] 3 [(2, 1)]
    (by decide) (by decide) (by decide)
  refine ⟨?_, ?_, by decide⟩
  · rw [h.1]
    decide
  · rw [h.2]
    rfl

end QuizApp

namespace QuizApp

/-- The effective question count as the specification words it: the
`limit` value (default 10 when absent or non-numeric, truncated toward
zero otherwise) clamped into `[1, bankSize]`. -/
def clampSpec (bankLen : ℕ) : LimitValue → ℕ
  | .absent => (max 1 (min (bankLen : Int) (DEFAULT_QUESTION_COUNT : Int))).toNat
  | .emptyStr => (max 1 (min (bankLen : Int) (DEFAULT_QUESTION_COUNT : Int))).toNat
  | .nonNumeric => (max 1 (min (bankLen : Int) (DEFAULT_QUESTION_COUNT : Int))).toNat
  | .numeric q => (max 1 (min (bankLen : Int) (jsTrunc q))).toNat

/-- Claim C5: for every value of the `limit` parameter (absent, empty,
non-numeric or numeric), `GET /api/quiz` returns a question set whose
length is the count clamped to `[1, bankSize]` with default 10, whose
ids are pairwise distinct, and all of whose questions come from the
bank. -/
theorem quiz_selection_spec (bank : List Question) (js : ℕ → ℕ)
    (lim : LimitValue) (hlen : 1 ≤ bank.length)
    (hids : (bankIds bank).Nodup) :
    (quizQuestions bank js lim).length = clampSpec bank.length lim ∧
    ((quizQuestions bank js lim).map (·.id)).Nodup ∧
    (∀ q ∈ quizQuestions bank js lim, q ∈ bank) := by
  have hperm := shuffleQuestions_perm js bank
  have hlen' : (shuffleQuestions js bank).length = bank.length := hperm.length_eq
  refine ⟨?_, ?_, ?_⟩
  · rw [quizQuestions, List.length_take, hlen']
    cases lim with
    | numeric q =>
      rw [clampQuestionCount, clampSpec]
      split_ifs with h1 h2 <;> omega
    | absent =>
      rw [clampQuestionCount, clampSpec]
      rw [DEFAULT_QUESTION_COUNT]
      omega
    | emptyStr =>
      rw [clampQuestionCount, clampSpec]
      rw [DEFAULT_QUESTION_COUNT]
      omega
    | nonNumeric =>
      rw [clampQuestionCount, clampSpec]
      rw [DEFAULT_QUESTION_COUNT]
      omega
  · rw [quizQuestions]
    have hids' : (bank.map Question.id).Nodup := hids
    have hnodup : ((shuffleQuestions js bank).map Question.id).Nodup :=
      ((hperm.map Question.id).nodup_iff).2 hids'
    exact ((List.take_sublist _ _).map Question.id).nodup hnodup
  · intro q hq
    exact hperm.subset (List.take_subset _ _ hq)

/-- The selection theorem applied at a concrete three-question bank with
`limit=2` and a concrete shuffle oracle. -/
theorem quiz_selection_spec_witness :
    (quizQuestions [⟨1, "a", [], 0⟩, ⟨2, "b", [], 0⟩, ⟨3, "c", [], 0⟩]
      (fun i => i % 2) (.numeric 2)).length = 2 ∧
    ((quizQuestions [⟨1, "a", [], 0⟩, ⟨2, "b", [], 0⟩, ⟨3, "c", [], 0⟩]
      (fun i => i % 2) (.numeric 2)).map (·.id)).Nodup := by
  have h := quiz_selection_spec
    [⟨1, "a", [], 0⟩, ⟨2, "b", [], 0⟩, ⟨3, "c", [], 0⟩]
    (fun i => i % 2) (.numeric 2) (by decide) (by decide)
  refine ⟨?_, h.2.1⟩
  rw [h.1]
  decide

/-- Claim C6: the next-button action is a no-op (disabled) whenever the
current position is unanswered; it becomes enabled by `selectChoice` at
the current position; when enabled it submits without moving on the last
position and advances by exactly one otherwise. -/
theorem advance_spec (s : ClientState) (c : Int) :
    (nextEnabled s = false → advance s = (s, .disabled)) ∧
    (s.currentIndex < s.questions.length →
      s.answers.length = s.questions.length →
      nextEnabled (selectChoice s c) = true) ∧
    (nextEnabled s = true →
      (s.currentIndex : Int) = (s.questions.length : Int) - 1 →
      advance s = (s, .submitted)) ∧
    (nextEnabled s = true →
      (s.currentIndex : Int) ≠ (s.questions.length : Int) - 1 →
      advance s = ({ s with currentIndex := s.currentIndex + 1 }, .moved)) := by
  refine ⟨?_, ?_, ?_, ?_⟩
  · intro h
    rw [advance, if_pos (by rw [h]; simp)]
  · intro hidx hlenq
    obtain ⟨q, hq⟩ : ∃ q, s.questions.get? s.currentIndex = some q := by
      rw [List.get?_eq_get hidx]
      exact ⟨_, rfl⟩
    rw [selectChoice, hq]
    simp only [nextEnabled]
    rw [List.get?_eq_getElem?, List.getElem?_set_self (by omega)]
  · intro hen hlast
    rw [advance, if_neg (by rw [hen]; simp), if_pos hlast]
  · intro hen hlast
    rw [advance, if_neg (by rw [hen]; simp), if_neg hlast]

/-- The next-button behavior applied at a concrete two-question session:
disabled while unanswered, enabled after answering, advancing from
position 0, submitting from position 1. -/
theorem advance_spec_witness :
    advance (ClientState.mk [⟨1, "a", [], 0⟩, ⟨2, "b", [], 1⟩]
      [none, none] [none, none] 0) =
      (ClientState.mk [⟨1, "a", [], 0⟩, ⟨2, "b", [], 1⟩]
        [none, none] [none, none] 0, .disabled) ∧
    nextEnabled (selectChoice (ClientState.mk [⟨1, "a", [], 0⟩, ⟨2, "b", [], 1⟩]
      [none, none] [none, none] 0) 1) = true ∧
    advance (ClientState.mk [⟨1, "a", [], 0⟩, ⟨2, "b", [], 1⟩]
      [some 0, some 1] [none, none] 1) =
      (ClientState.mk [⟨1, "a", [], 0⟩, ⟨2, "b", [], 1⟩]
        [some 0, some 1] [none, none] 1, .submitted) ∧
    advance (ClientState.mk [⟨1, "a", [], 0⟩, ⟨2, "b", [], 1⟩]
      [some 0, none] [none, none] 0) =
      (ClientState.mk [⟨1, "a", [], 0⟩, ⟨2, "b", [], 1⟩]
        [some 0, none] [none, none] 1, .moved) := by
  refine ⟨?_, ?_, ?_, ?_⟩
  · exact (advance_spec (ClientState.mk [⟨1, "a", [], 0⟩, ⟨2, "b", [], 1⟩]
      [none, none] [none, none] 0) 0).1 (by decide)
  · exact (advance_spec (ClientState.mk [⟨1, "a", [], 0⟩, ⟨2, "b", [], 1⟩]
      [none, none] [none, none] 0) 1).2.1 (by decide) (by decide)
  · exact (advance_spec (ClientState.mk [⟨1, "a", [], 0⟩, ⟨2, "b", [], 1⟩]
      [some 0, some 1] [none, none] 1) 0).2.2.1 (by decide) (by decide)
  · exact (advance_spec (ClientState.mk [⟨1, "a", [], 0⟩, ⟨2, "b", [], 1⟩]
      [some 0, none] [none, none] 0) 0).2.2.2 (by decide) (by decide)

/-- Claim C7: the handler rejects with a 400 and leaves the store
untouched when the sanitized name is empty; every entry it ever persists
either was already stored or carries exactly the sanitized name
(whitespace collapsed, ends trimmed, truncated to 32 characters); the
sanitized name is at most 32 characters, its whitespace is single
spaces, and it never starts with whitespace. -/
theorem name_sanitization_spec (bank : List Question) (p : SubmitPayload)
    (store : List Entry) (now : ℕ) :
    (sanitizeName p.playerName = [] →
      handleSubmit bank p store now = (.badRequest, store)) ∧
    (∀ e ∈ (handleSubmit bank p store now).2,
      e ∈ store ∨ e.name = sanitizeName p.playerName) ∧
    (sanitizeName p.playerName).length ≤ 32 ∧
    (∀ c ∈ sanitizeName p.playerName, isJsWs c = true → c = ' ') ∧
    (∀ c, (sanitizeName p.playerName).head? = some c → isJsWs c = false) := by
  refine ⟨fun h => handleSubmit_of_name_empty h, ?_, length_sanitizeName_le _,
    fun c hc hws => mem_sanitizeName_ws hc hws, fun c hc => head?_sanitizeName hc⟩
  intro e he
  rcases handleSubmit_shape bank p store now with h | ⟨m, hm, hname, hlen, h⟩
  · rw [h] at he
    exact Or.inl he
  · rw [h] at he
    simp only at he
    rcases mem_mergeEntry (mem_of_mem_sortLeaderboard he) with h' | rfl
    · exact Or.inl h'
    · exact Or.inr rfl

/-- Sanitization applied at a concrete payload: a name of whitespace
only is rejected with the store untouched, and a messy name is persisted
collapsed and trimmed. -/
theorem name_sanitization_spec_witness :
    handleSubmit [⟨1, "q", ["a", "b"], 0⟩]
      (SubmitPayload.mk [' ', '\t', ' '] (some [RawAnswer.pair 1 0]) (some 2))
      [⟨['z'], 1, 1, some 2, 0⟩] 4 =
      (.badRequest, [⟨['z'], 1, 1, some 2, 0⟩]) ∧
    sanitizeName [' ', 'a', ' ', ' ', 'b', ' '] = ['a', ' ', 'b'] ∧
    (sanitizeName [' ', 'a', ' ', ' ', 'b', ' ']).length ≤ 32 := by
  refine ⟨?_, by decide, ?_⟩
  · exact (name_sanitization_spec [⟨1, "q", ["a", "b"], 0⟩]
      (SubmitPayload.mk [' ', '\t', ' '] (some [RawAnswer.pair 1 0]) (some 2))
      [⟨['z'], 1, 1, some 2, 0⟩] 4).1 (by decide)
  · exact (name_sanitization_spec [⟨1, "q", ["a", "b"], 0⟩]
      (SubmitPayload.mk [' ', 'a', ' ', ' ', 'b', ' '] none none)
      [] 0).2.2.1

end QuizApp

namespace QuizApp

/-- Positions carrying equal ids in a bank with pairwise-distinct ids
coincide. -/
lemma bank_id_idx_unique {bank : List Question} (hids : (bankIds bank).Nodup)
    {i j : ℕ} {qi qj : Question} (hi : bank.get? i = some qi)
    (hj : bank.get? j = some qj) (heq : qi.id = qj.id) : i = j := by
  have h1 : (bankIds bank)[i]? = some qi.id := by
    rw [bankIds, List.getElem?_map, ← List.get?_eq_getElem?, hi]
    rfl
  have h2 : (bankIds bank)[j]? = some qj.id := by
    rw [bankIds, List.getElem?_map, ← List.get?_eq_getElem?, hj]
    rfl
  have hilen : i < (bankIds bank).length := by
    by_contra hc
    rw [List.getElem?_eq_none (by omega)] at h1
    cases h1
  exact List.getElem?_inj hilen hids (by rw [h1, h2, heq])

/-- Running the normalization loop over a purely numeric payload maps
the value at index `i` to the id of the `idx + i`-th bank question. -/
lemma normGo_nums {bank : List Question} (hids : (bankIds bank).Nodup) :
    ∀ (nums : List Int) (idx : ℕ) (acc : List (Int × Int)),
      idx + nums.length ≤ bank.length →
      (∀ k, hasKey acc k = true →
        ∃ i, i < idx ∧ ∃ q, bank.get? i = some q ∧ q.id = k) →
      normGo bank (nums.map .num) idx acc =
        acc ++ List.zipWith (fun q v => (q.id, v)) (bank.drop idx) nums
  | [], idx, acc, _, _ => by
    simp [normGo]
  | v :: rest, idx, acc, hlen, hinv => by
    simp only [List.map_cons, List.length_cons] at hlen ⊢
    rw [normGo]
    have hidx : idx < bank.length := by omega
    obtain ⟨q, hq⟩ : ∃ q, bank.get? idx = some q := by
      rw [List.get?_eq_get hidx]
      exact ⟨_, rfl⟩
    have hqmem : q ∈ bank := List.get?_mem hq
    have hcontains : (bankIds bank).contains q.id = true :=
      contains_iff_mem.2 (List.mem_map.2 ⟨q, hqmem, rfl⟩)
    have hkey : hasKey acc q.id = false := by
      cases hb : hasKey acc q.id with
      | false => rfl
      | true =>
        obtain ⟨i, hilt, q', hq', hq'id⟩ := hinv q.id hb
        have := bank_id_idx_unique hids hq' hq hq'id
        omega
    have hstep : normStep bank idx acc (.num v) = acc ++ [(q.id, v)] := by
      rw [normStep, hq]
      simp only
      rw [if_pos (by rw [hcontains, hkey]; rfl)]
    have hget : bank[idx] = q := by
      rw [List.get?_eq_getElem?, List.getElem?_eq_getElem hidx] at hq
      exact Option.some.inj hq
    rw [hstep, normGo_nums hids rest (idx + 1) (acc ++ [(q.id, v)])
      (by omega) ?_]
    · rw [List.drop_eq_getElem_cons hidx, List.zipWith_cons_cons, hget,
        List.append_assoc]
      rfl
    · intro k hk
      simp only [hasKey, List.any_append, Bool.or_eq_true] at hk
      rcases hk with h' | h'
      · obtain ⟨i, hilt, q', hq', hid⟩ := hinv k (by
          rw [hasKey]
          exact h')
        exact ⟨i, by omega, q', hq', hid⟩
      · simp only [List.any_cons, List.any_nil, Bool.or_false,
          decide_eq_true_eq] at h'
        exact ⟨idx, by omega, q, hq, h'⟩

/-- Claim C9: the handler also accepts an answers array of bare numbers;
each number at index `i < bankSize` (with the `i`-th bank id not already
mapped) is treated as the choice index for the `i`-th question of the
bank in bank order — a payload shape the wire contract does not mention,
yet normalized successfully into the positional id/choice mapping. -/
theorem positional_answers_spec (bank : List Question) (nums : List Int)
    (hids : (bankIds bank).Nodup) (hlen : nums.length ≤ bank.length)
    (hne : nums ≠ []) :
    normalizeAnswers bank (some (nums.map RawAnswer.num)) =
      some (List.zipWith (fun q v => (q.id, v)) bank nums) := by
  have hgo := normGo_nums hids nums 0 [] (by omega) (by
    intro k hk
    simp [hasKey] at hk)
  rw [List.drop_zero, List.nil_append] at hgo
  rw [normalizeAnswers, if_neg (by
    simp only [List.isEmpty_iff, List.map_eq_nil_iff]
    exact hne), hgo, if_pos]
  rw [List.length_zipWith, List.length_map]
  omega

/-- Positional answers applied at a concrete two-question bank: `[1, 0]`
maps to question 1 choice 1 and question 2 choice 0. -/
theorem positional_answers_spec_witness :
    normalizeAnswers [⟨1, "q1", ["a", "b"], 0⟩, ⟨2, "q2", ["a", "b"], 1⟩]
      (some [RawAnswer.num 1, RawAnswer.num 0]) = some [(1, 1), (2, 0)] := by
  exact positional_answers_spec
    [⟨1, "q1", ["a", "b"], 0⟩, ⟨2, "q2", ["a", "b"], 1⟩] [1, 0]
    (by decide) (by decide) (by decide)

end QuizApp

namespace QuizApp

/-- Counterexample to claim C2: starting from a conforming store (one
entry, score 1, totalTime `0`, completedAt `5`), a single submission
with an equal score and a `null` totalTime stamped at time `3` is
persisted *after* the stored entry: equal scores, equal effective
totalTimes (`null` compares as `0`, claim C10), but completedAt `5`
before completedAt `3` — descending, not ascending.  The comparator
returns `0` for a same-score `null`-vs-`0` time pair without ever
consulting `completedAt`, and the stable sort keeps the pre-sort
order. -/
theorem write_order_counterexample :
    ([(⟨['u'], 1, 1, some 0, 5⟩ : Entry)].Pairwise claimLE ∧
      ([(⟨['u'], 1, 1, some 0, 5⟩ : Entry)]).length ≤ 25) ∧
    (handleSubmit [⟨1, "q", ["a", "b"], 0⟩]
        (SubmitPayload.mk ['x'] (some [RawAnswer.pair 1 0]) none)
        [⟨['u'], 1, 1, some 0, 5⟩] 3).2 =
      [⟨['u'], 1, 1, some 0, 5⟩, ⟨['x'], 1, 1, none, 3⟩] ∧
    ¬ ((handleSubmit [⟨1, "q", ["a", "b"], 0⟩]
        (SubmitPayload.mk ['x'] (some [RawAnswer.pair 1 0]) none)
        [⟨['u'], 1, 1, some 0, 5⟩] 3).2).Pairwise claimLE := by
  refine ⟨by decide, by decide, by decide⟩

/-- Claim C2 as amended: every successful submit writes at most 25
entries, and the written list is sorted by the claimed order (score
descending, then ascending totalTime, then ascending completedAt)
whenever every stored and submitted totalTime is non-null; with null
times present the completedAt tiebreak is skipped for same-score pairs
of which exactly one side is null. -/
theorem write_invariant_amended (bank : List Question) (p : SubmitPayload)
    (store : List Entry) (now : ℕ) :
    ((handleSubmit bank p store now).1 ≠ .badRequest →
      ((handleSubmit bank p store now).2).length ≤ 25) ∧
    ((∀ e ∈ store, e.totalTime.isSome) →
      (∃ t, p.totalTime = some t ∧ 0 ≤ t) →
      ((handleSubmit bank p store now).2).Pairwise claimLE ∨
        (handleSubmit bank p store now).2 = store) := by
  rcases handleSubmit_shape bank p store now with h | ⟨m, hm, hname, hlen, h⟩
  · refine ⟨fun hne => absurd (by rw [h]) hne, fun _ _ => Or.inr (by rw [h])⟩
  · constructor
    · intro _
      rw [h]
      exact length_sortLeaderboard_le _
    · intro hstore ⟨t, ht, htpos⟩
      left
      rw [h]
      refine pairwise_claimLE_sortLeaderboard ?_
      intro e he
      rcases mem_mergeEntry he with h' | rfl
      · exact hstore e h'
      · show ((parseTime p.totalTime).map round2).isSome = true
        rw [ht, parseTime, if_pos htpos]
        rfl

/-- The amended write invariant applied at a concrete submission over an
empty store: the write is bounded and sorted. -/
theorem write_invariant_amended_witness :
    ((handleSubmit [⟨1, "q", ["a", "b"], 0⟩]
        (SubmitPayload.mk ['u'] (some [RawAnswer.pair 1 0]) (some 2))
        [] 5).2).length ≤ 25 ∧
    (((handleSubmit [⟨1, "q", ["a", "b"], 0⟩]
        (SubmitPayload.mk ['u'] (some [RawAnswer.pair 1 0]) (some 2))
        [] 5).2).Pairwise claimLE ∨
      (handleSubmit [⟨1, "q", ["a", "b"], 0⟩]
        (SubmitPayload.mk ['u'] (some [RawAnswer.pair 1 0]) (some 2))
        [] 5).2 = []) := by
  have h := write_invariant_amended [⟨1, "q", ["a", "b"], 0⟩]
    (SubmitPayload.mk ['u'] (some [RawAnswer.pair 1 0]) (some 2)) [] 5
  exact ⟨h.1 (by decide), h.2 (by simp) ⟨2, rfl, by norm_num⟩⟩

end QuizApp

namespace QuizApp

/-- A duplicate-free leaderboard holding the name holds it exactly
once. -/
lemma count_names_eq_one {l : List Entry} {nm : List Char}
    (hnodup : (l.map Entry.name).Nodup) (hmem : ∃ e ∈ l, e.name = nm) :
    l.countP (fun e => decide (e.name = nm)) = 1 := by
  induction l with
  | nil => simp at hmem
  | cons e rest ih =>
    rw [List.map_cons, List.nodup_cons] at hnodup
    by_cases he : e.name = nm
    · have hrest : rest.countP (fun e => decide (e.name = nm)) = 0 := by
        rw [List.countP_eq_zero]
        intro x hx hpx
        simp only [decide_eq_true_eq] at hpx
        exact hnodup.1 (List.mem_map.2 ⟨x, hx, by rw [hpx, he]⟩)
      rw [List.countP_cons, hrest]
      simp [he]
    · rcases hmem with ⟨x, hx, hxn⟩
      rcases List.mem_cons.1 hx with rfl | hx'
      · exact absurd hxn he
      · rw [List.countP_cons, ih hnodup.2 ⟨x, hx', hxn⟩]
        simp [he]

/-- The replacement condition reads only the new entry's score. -/
lemma replCond_score_congr {n1 n2 cur : Entry} {rawT : Option ℚ}
    (h : n1.score = n2.score) :
    replCond n1 cur rawT = replCond n2 cur rawT := by
  rw [replCond, replCond, h]

/-- Resubmitting over one's own freshly written entry never replaces it,
provided the submitted time does not round up (in particular when it is
null). -/
lemma replCond_newEntry_false {bank : List Question} {p : SubmitPayload}
    {m : List (Int × Int)} {now1 now2 : ℕ}
    (hround : parseTime p.totalTime = none ∨
      ∃ t, parseTime p.totalTime = some t ∧ round2 t ≤ t) :
    replCond (newEntryOf bank p m now2) (newEntryOf bank p m now1)
      (parseTime p.totalTime) = false := by
  rw [replCond]
  have hsc : decide ((newEntryOf bank p m now1).score <
      (newEntryOf bank p m now2).score) = false := by
    simp [newEntryOf]
  have hfast : isFaster (parseTime p.totalTime)
      ((newEntryOf bank p m now1).totalTime) = false := by
    rcases hround with h | ⟨t, ht, hle⟩
    · show isFaster (parseTime p.totalTime)
        ((parseTime p.totalTime).map round2) = false
      rw [h]
      rfl
    · show isFaster (parseTime p.totalTime)
        ((parseTime p.totalTime).map round2) = false
      rw [ht]
      show decide (t < round2 t) = false
      exact decide_eq_false (not_lt.2 hle)
  rw [hsc, hfast]
  simp

/-- Counterexample to claim C8: the store already holds a better entry
for the name (score 1, time 10).  Submitting the identical
`(name, score 0, time 20)` twice is idempotent on the store, but the
single surviving entry for the name carries score 1 and time 10, not
the submitted score and time — so the claim's "exactly one entry for
that name carrying that score and time" fails. -/
theorem resubmit_counterexample :
    (handleSubmit [⟨1, "q", ["a", "b"], 0⟩]
        (SubmitPayload.mk ['a'] (some [RawAnswer.pair 1 1]) (some 20))
        ((handleSubmit [⟨1, "q", ["a", "b"], 0⟩]
          (SubmitPayload.mk ['a'] (some [RawAnswer.pair 1 1]) (some 20))
          [⟨['a'], 1, 1, some 10, 0⟩] 1).2) 2).2 =
      [⟨['a'], 1, 1, some 10, 0⟩] ∧
    ((handleSubmit [⟨1, "q", ["a", "b"], 0⟩]
        (SubmitPayload.mk ['a'] (some [RawAnswer.pair 1 1]) (some 20))
        [⟨['a'], 1, 1, some 10, 0⟩] 1).1).scoreOf = some 0 ∧
    ¬ (∃ e ∈ (handleSubmit [⟨1, "q", ["a", "b"], 0⟩]
        (SubmitPayload.mk ['a'] (some [RawAnswer.pair 1 1]) (some 20))
        ((handleSubmit [⟨1, "q", ["a", "b"], 0⟩]
          (SubmitPayload.mk ['a'] (some [RawAnswer.pair 1 1]) (some 20))
          [⟨['a'], 1, 1, some 10, 0⟩] 1).2) 2).2,
        e.score = 0 ∧ e.totalTime = some 20) := by
  refine ⟨by decide, by decide, by decide⟩

/-- Claim C8 as amended: for a store with pairwise-distinct names, if
the name still appears after the first submission (it survived the
top-25 truncation), and the submitted time is null or does not round up
to its stored two-decimal value, then submitting the identical payload
a second time leaves the persisted store exactly as after the first
submission, which carries exactly one entry for the name; that entry is
the player's best attempt, which need not carry the resubmitted score
and time. -/
theorem resubmit_idempotent_amended (bank : List Question) (p : SubmitPayload)
    (store : List Entry) (now1 now2 : ℕ)
    (hnames : (store.map Entry.name).Nodup)
    (hmem : ∃ e ∈ (handleSubmit bank p store now1).2,
      e.name = sanitizeName p.playerName)
    (hround : parseTime p.totalTime = none ∨
      ∃ t, parseTime p.totalTime = some t ∧ round2 t ≤ t) :
    (handleSubmit bank p (handleSubmit bank p store now1).2 now2).2 =
      (handleSubmit bank p store now1).2 ∧
    ((handleSubmit bank p store now1).2).countP
      (fun e => decide (e.name = sanitizeName p.playerName)) = 1 := by
  by_cases hname : sanitizeName p.playerName = []
  · have e1 : handleSubmit bank p store now1 = (.badRequest, store) :=
      handleSubmit_of_name_empty hname
    rw [e1] at hmem ⊢
    rw [handleSubmit_of_name_empty hname]
    exact ⟨rfl, count_names_eq_one hnames hmem⟩
  cases hm : normalizeAnswers bank p.answers with
  | none =>
    have e1 : handleSubmit bank p store now1 = (.badRequest, store) :=
      handleSubmit_of_none hm
    rw [e1] at hmem ⊢
    rw [handleSubmit_of_none hm]
    exact ⟨rfl, count_names_eq_one hnames hmem⟩
  | some m =>
    have hlen : m.length ≠ 0 := by
      obtain ⟨raw, -, -, hlen', hraw⟩ := normalizeAnswers_some hm
      rw [hlen']
      intro h0
      exact hraw (List.length_eq_zero.1 h0)
    have hfound : ∀ pr ∈ m, (findQ bank pr.1).isSome := fun pr hpr =>
      findQ_isSome_of_mem_bankIds (normalizeAnswers_keys hm pr hpr)
    have e1 := handleSubmit_ok store now1 hname hm hlen hfound
    have e2 := handleSubmit_ok (handleSubmit bank p store now1).2 now2
      hname hm hlen hfound
    rw [e1] at hmem e2 ⊢
    simp only at hmem e2 ⊢
    set T := sortLeaderboard
      (mergeEntry store (newEntryOf bank p m now1) (parseTime p.totalTime)) with hT
    have hTnodup : (T.map Entry.name).Nodup :=
      names_nodup_sortLeaderboard (names_nodup_mergeEntry hnames)
    have hkeep : ∀ e ∈ T, e.name = (newEntryOf bank p m now2).name →
        replCond (newEntryOf bank p m now2) e (parseTime p.totalTime) = false := by
      intro e heT hen
      rcases mem_mergeEntry (mem_of_mem_sortLeaderboard heT) with hstore | rfl
      · obtain ⟨pre, suf, rfl⟩ := List.append_of_mem hstore
        have hsplit := hnames
        rw [List.map_append, List.map_cons, List.nodup_middle,
          ← List.map_append, List.nodup_cons] at hsplit
        have hpre : ∀ x ∈ pre, x.name ≠ (newEntryOf bank p m now1).name := by
          intro x hx hxn
          exact hsplit.1 (List.mem_map.2 ⟨x, List.mem_append_left suf hx,
            by rw [hxn]; exact hen.symm⟩)
        have hmerge := mergeEntry_first (newEntryOf bank p m now1) e
          (parseTime p.totalTime) pre suf hpre hen
        have heM : e ∈ mergeEntry (pre ++ e :: suf) (newEntryOf bank p m now1)
            (parseTime p.totalTime) := mem_of_mem_sortLeaderboard heT
        rw [hmerge] at heM
        rcases List.mem_append.1 heM with hp | hp
        · exact absurd hen (hpre e hp)
        · rcases List.mem_cons.1 hp with heq | hp'
          · by_cases hr : replCond (newEntryOf bank p m now1) e
                (parseTime p.totalTime) = true
            · rw [if_pos hr] at heq
              rw [heq]
              exact replCond_newEntry_false hround
            · rw [replCond_score_congr
                (show (newEntryOf bank p m now2).score =
                  (newEntryOf bank p m now1).score from rfl)]
              exact Bool.eq_false_iff.2 hr
          · exact absurd (List.mem_map.2 ⟨e, List.mem_append_right pre hp',
              rfl⟩) hsplit.1
      · exact replCond_newEntry_false hround
    have hmergeT : mergeEntry T (newEntryOf bank p m now2)
        (parseTime p.totalTime) = T :=
      mergeEntry_eq_self hmem hkeep
    rw [e2, hmergeT, hT]
    exact ⟨sortLeaderboard_idem _, count_names_eq_one hTnodup hmem⟩

/-- The amended idempotence applied at a concrete fresh submission with
a null time: the second identical submission changes nothing and the
name appears exactly once. -/
theorem resubmit_idempotent_amended_witness :
    (handleSubmit [⟨1, "q", ["a", "b"], 0⟩]
        (SubmitPayload.mk ['u'] (some [RawAnswer.pair 1 0]) none)
        ((handleSubmit [⟨1, "q", ["a", "b"], 0⟩]
          (SubmitPayload.mk ['u'] (some [RawAnswer.pair 1 0]) none) [] 4).2)
        6).2 =
      (handleSubmit [⟨1, "q", ["a", "b"], 0⟩]
        (SubmitPayload.mk ['u'] (some [RawAnswer.pair 1 0]) none) [] 4).2 ∧
    ((handleSubmit [⟨1, "q", ["a", "b"], 0⟩]
        (SubmitPayload.mk ['u'] (some [RawAnswer.pair 1 0]) none) [] 4).2).countP
      (fun e => decide (e.name = sanitizeName ['u'])) = 1 :=
  resubmit_idempotent_amended [⟨1, "q", ["a", "b"], 0⟩]
    (SubmitPayload.mk ['u'] (some [RawAnswer.pair 1 0]) none) [] 4 6
    (by decide) (by decide) (Or.inl (by decide))

end QuizApp
